import Mathlib

/-!
Verification of the memequeue ring-buffer engine.

The shared ring of `Q` bytes is mapped twice at consecutive virtual
addresses (`lib.rs`: the `left` mmap at base `B`, the `right` mmap at
`B + Q`, both backed by the same file region), so a byte store at
virtual offset `v` with `v < 2 * Q` lands at physical offset `v % Q`
and is observable through both mappings.  We model the physical ring as
a function `Nat → Nat` (the source works with `u8` values; values are
immaterial to the offsets) indexed mod `Q`, and the header offsets
(`Header.left`, `Header.right` in `lib.rs`, both `AtomicUsize`) as
naturals.

The engine in `src/lib.rs` is single-producer/single-consumer; all the
claims treated here concern the sequential semantics (one operation at
a time, as in the crate's own proptest harness), so each operation is a
pure state transformer.  An operation that would park forever on
`ShmemRawMutex::wait` with no peer to wake it is modelled as `none`.
-/

namespace Memequeue

/-- State of one queue: the capacity `size` (the field `MemeQueue::size`,
a positive multiple of the page size), the physical bytes of the ring
`data` (indexed mod `size`; only indices below `size` are meaningful),
and the two header offsets `left` (reader) and `right` (producer). -/
structure Queue where
  size : Nat
  data : Nat → Nat
  left : Nat
  right : Nat

/-- Store one byte at virtual offset `v`: through the double mapping this
writes physical index `v % Q`. -/
def writeByte (Q : Nat) (d : Nat → Nat) (v b : Nat) : Nat → Nat :=
  fun j => if j = v % Q then b else d j

/-- Store a list of bytes at consecutive virtual offsets starting at `v`
(models `ptr::copy_nonoverlapping(src, B + v, len)`). -/
def writeBytes (Q : Nat) : (Nat → Nat) → Nat → List Nat → Nat → Nat
  | d, _, [] => d
  | d, v, b :: rest => writeBytes Q (writeByte Q d v b) (v + 1) rest

/-- Read `n` bytes at consecutive virtual offsets starting at `v`
(models `slice::from_raw_parts(B + v, n)` through the double mapping). -/
def readBytes (Q : Nat) (d : Nat → Nat) : Nat → Nat → List Nat
  | _, 0 => []
  | v, n + 1 => d (v % Q) :: readBytes Q d (v + 1) n

/-- Little-endian byte decomposition, `k` bytes of `n`. -/
def leBytesAux : Nat → Nat → List Nat
  | 0, _ => []
  | k + 1, n => n % 256 :: leBytesAux k (n / 256)

/-- The 8 little-endian bytes of `n`, as produced by
`(written as u64).to_le_bytes()` in `MemeQueue::write`; the `as u64`
truncation is implicit because only the low 8 digits are kept. -/
def leBytes64 (n : Nat) : List Nat := leBytesAux 8 n

/-- Little-endian recomposition of a byte list, as `u64::from_le_bytes`
does for the 8-byte length field read in `MemeQueue::read`. -/
def leDecodeAux : List Nat → Nat
  | [] => 0
  | b :: rest => b + 256 * leDecodeAux rest

/-- Decode the 8-byte little-endian length field. -/
def leDecode64 (bs : List Nat) : Nat := leDecodeAux bs

/-- One pass of the loop of `MemeQueue::alloc_for_write` (`lib.rs` lines
117-142), with explicit fuel standing for the unbounded `loop`:

  - load `left`; if `left > self.size`, rewind: subtract `self.size`
    from both header offsets (under both locks — the caller holds the
    right lock, the rewind takes the left one);
  - `window_end = left + self.size` — note the source computes this
    from the value of `left` loaded before the rewind;
  - reload `right` (it reflects the rewind), and
    `space_available = window_end.saturating_sub(right)`;
  - if `space_available >= size`, return a pointer at virtual offset
    `right`;
  - otherwise `self.left_lock.wait()` and loop again.  With no peer the
    wait never returns once the state stops changing, which is the
    `none` outcome here; after a rewind the next pass sees the updated
    offsets, which the recursive call reflects. -/
def allocLoop : Nat → Queue → Nat → Option (Queue × Nat)
  | 0, _, _ => none
  | fuel + 1, q, size =>
    if q.size < q.left then
      if size ≤ q.left + q.size - (q.right - q.size) then
        some (⟨q.size, q.data, q.left - q.size, q.right - q.size⟩, q.right - q.size)
      else
        allocLoop fuel ⟨q.size, q.data, q.left - q.size, q.right - q.size⟩ size
    else
      if size ≤ q.left + q.size - q.right then some (q, q.right)
      else none

/-- MemeQueue::alloc_for_write.  Fuel `q.left + 1` is enough to reach a
fixed point: every recursive pass subtracts `q.size ≥ 1` from `left`
(a pass that performs no rewind does not recurse), so `none` means the
source loop is parked in `wait()` forever. -/
def allocForWrite (q : Queue) (size : Nat) : Option (Queue × Nat) :=
  allocLoop (q.left + 1) q size

/-- One call of `<MemeWriter as Write>::write` (`lib.rs` lines 242-267)
with `tw` the current `total_written`:

  - if `buf.len() > self.total_written + self.queue.size`, return an
    error ("message is longer than the queue") and change nothing —
    this is the oversize check as written in the source;
  - otherwise `alloc_for_write(buf.len())`, copy `buf` to the returned
    pointer offset by `total_written`, and bump `total_written`.

The `Bool` is the success of the `io::Result` (`false` = `Err`). -/
def writerWrite (q : Queue) (tw : Nat) (buf : List Nat) : Option (Queue × Nat × Bool) :=
  if tw + q.size < buf.length then some (q, tw, false)
  else
    match allocForWrite q buf.length with
    | none => none
    | some (q', pos) =>
      some (⟨q'.size, writeBytes q'.size q'.data (pos + tw) buf, q'.left, q'.right⟩,
        tw + buf.length, true)

/-- The producer callback, modelled as a list of buffers written in
order with `writer.write_all(&buf)?` (for this writer a successful
`write` always accepts the whole buffer, so `write_all` is one `write`
call; an `Err` makes the callback return early, as `?` does). -/
def runCallback : Queue → Nat → List (List Nat) → Option (Queue × Nat × Bool)
  | q, tw, [] => some (q, tw, true)
  | q, tw, buf :: rest =>
    match writerWrite q tw buf with
    | none => none
    | some (q', tw', true) => runCallback q' tw' rest
    | some (q', tw', false) => some (q', tw', false)

/-- MemeQueue::write (`lib.rs` lines 144-163), the `send` operation:

  1. take the right lock (implicit here);
  2. `len_ptr = alloc_for_write(8)`; write 8 zero bytes there;
  3. run the callback with `total_written` starting at 8;
  4. write `written = total_written - 8` at `len_ptr` as little-endian
     `u64`;
  5. `right.fetch_add(total_written)`.

Steps 4 and 5 happen unconditionally — the source never looks at the
callback's result `res`, it just returns it — so the message is
committed even when the callback failed.  `cbOk` is the callback's own
final result, and the returned flag is the overall result the caller
sees (`false` as soon as a write failed or the callback itself failed). -/
def memeWrite (q : Queue) (bufs : List (List Nat)) (cbOk : Bool) : Option (Queue × Bool) :=
  match allocForWrite q 8 with
  | none => none
  | some (q1, lenPtr) =>
    match runCallback ⟨q1.size, writeBytes q1.size q1.data lenPtr (List.replicate 8 0),
        q1.left, q1.right⟩ 8 bufs with
    | none => none
    | some (q3, tw, writesOk) =>
      some (⟨q3.size, writeBytes q3.size q3.data lenPtr (leBytes64 (tw - 8)),
          q3.left, q3.right + tw⟩, writesOk && cbOk)

/-- MemeQueue::read (`lib.rs` lines 165-199), the `recv` operation:

  - take the left lock; load `left` and `right`;
  - if `right.saturating_sub(left) > 0` (the source also
    `debug_assert!(right - left >= 8)` here): decode the 8-byte length
    field at virtual offset `left`, take the payload slice of that
    length at `left + 8`, store `left + 8 + size` into the left offset,
    and return the payload (the callback is applied to it by the
    caller, after the store);
  - otherwise wait on the right lock and loop — `none` with no peer. -/
def memeRead (q : Queue) : Option (Queue × List Nat) :=
  if 0 < q.right - q.left then
    some (⟨q.size, q.data,
        q.left + 8 + leDecode64 (readBytes q.size q.data q.left 8), q.right⟩,
      readBytes q.size q.data (q.left + 8)
        (leDecode64 (readBytes q.size q.data q.left 8)))
  else none

/-- MemeQueue::read applied to a consumer callback `f`: the offset store
happens before `f` runs, so the state does not depend on `f`'s result. -/
def memeReadWith {E A : Type} (q : Queue) (f : List Nat → Except E A) :
    Option (Queue × Except E A) :=
  (memeRead q).map fun r => (r.1, f r.2)

/-- The snapshot returned by `MemeQueue::export_state` (`lib.rs` lines
201-224). -/
structure MemeState where
  buf : List Nat
  right_buf : List Nat
  left_pointer : Nat
  right_pointer : Nat

/-- MemeQueue::export_state: copies both mappings and loads the two
offsets.  The source loads `self.header().left` for `right_pointer` as
well (`lib.rs` line 217). -/
def exportState (q : Queue) : MemeState :=
  { buf := readBytes q.size q.data 0 q.size
    right_buf := readBytes q.size q.data q.size q.size
    left_pointer := q.left
    right_pointer := q.left }

/-- Rust `usize::next_multiple_of` for a positive modulus, as used on
`queue_size` in both handshake variants. -/
def nextMultipleOf (n m : Nat) : Nat := if n % m = 0 then n else n + (m - n % m)

/-- File length installed by the owner in the named-file handshake
(`handshake/named_file.rs` line 91): `page_size + queue_size` after
rounding the requested size up to a page multiple. -/
def namedFileOwnerFileSize (pageSize requested : Nat) : Nat :=
  pageSize + nextMultipleOf requested pageSize

/-- Memfd length installed by the owner in the socket handshake
(`handshake/uds_memfd.rs` line 115): also `page_size + queue_size`. -/
def udsMemfdOwnerFileSize (pageSize requested : Nat) : Nat :=
  pageSize + nextMultipleOf requested pageSize

/-- File length installed by `QueueMmaps::create_from_file`
(`mmap.rs` line 143): `page_size + queue_size * 2`. -/
def createFromFileFileSize (pageSize queueSize : Nat) : Nat :=
  pageSize + queueSize * 2

/-- Peer-side queue-size recovery, identical in
`handshake/named_file.rs` lines 100-107 and `handshake/uds_memfd.rs`
lines 148-155: `queue_size = file_len.checked_sub(page_size).expect(..)`
(the `expect` panics when `file_len < page_size`), then
`panic!` unless `queue_size % page_size == 0`.  `none` models the
panics (hard errors); note that `file_len = page_size` passes both
checks and yields `some 0`. -/
def peerRecoverQueueSize (pageSize fileLen : Nat) : Option Nat :=
  if fileLen < pageSize then none
  else if (fileLen - pageSize) % pageSize ≠ 0 then none
  else some (fileLen - pageSize)

/-- A queue op in the sequential SPSC semantics: a `send` of one payload
(`MemeQueue::write` whose callback does `writer.write_all(&payload)`),
or a `recv` (`MemeQueue::read`). -/
inductive Op where
  | send (payload : List Nat)
  | recv

/-- One operation, exactly as the source executes it. -/
def step (q : Queue) : Op → Option Queue
  | .send p => (memeWrite q [p] true).map Prod.fst
  | .recv => (memeRead q).map Prod.fst

/-- A sequence of operations, exactly as the source executes them. -/
def run : Queue → List Op → Option Queue
  | q, [] => some q
  | q, op :: rest =>
    match step q op with
    | none => none
    | some q' => run q' rest

/-- One operation under the guard of the crate's own proptest harness
(`lib.rs` test `simple`): a send is only issued when
`buf.len() + 8 <= available_space`, i.e. when the framed message fits
in the free part of the ring; a send that would not fit is skipped
(here: rejected), and recvs are unrestricted. -/
def stepGuarded (q : Queue) : Op → Option Queue
  | .send p =>
    if 8 + p.length + (q.right - q.left) ≤ q.size then (memeWrite q [p] true).map Prod.fst
    else none
  | .recv => (memeRead q).map Prod.fst

/-- A sequence of operations under the proptest guard. -/
def runGuarded : Queue → List Op → Option Queue
  | q, [] => some q
  | q, op :: rest =>
    match stepGuarded q op with
    | none => none
    | some q' => runGuarded q' rest

/-- A freshly initialized queue: the owner zero-fills the header, so
both offsets start at 0; the ring contents are arbitrary. -/
def initQueue (Q : Nat) (d : Nat → Nat) : Queue := ⟨Q, d, 0, 0⟩

/-- Total framed size of a list of pending messages: 8 length-field
bytes plus the payload for each. -/
def sumSize (msgs : List (List Nat)) : Nat := (msgs.map fun m => 8 + m.length).sum

/-- The window starting at virtual offset `v` holds the given messages
back to back, each as an 8-byte little-endian length field followed by
the payload. -/
def laidOut (Q : Nat) (d : Nat → Nat) : Nat → List (List Nat) → Prop
  | _, [] => True
  | v, m :: rest =>
    readBytes Q d v 8 = leBytes64 m.length ∧
    readBytes Q d (v + 8) m.length = m ∧
    laidOut Q d (v + 8 + m.length) rest

/-- Well-formed queue state with ghost message list: offsets are
ordered, the window is never larger than the ring, its length is the
framed size of the pending messages, and those messages are laid out in
it.  The size bounds (`8 ≤ size`, from size being a positive multiple
of the page size, and `size < 2 ^ 64`, from `usize` on the 64-bit
targets the crate supports) are carried along. -/
def WF (q : Queue) (msgs : List (List Nat)) : Prop :=
  8 ≤ q.size ∧ q.size < 2 ^ 64 ∧
  q.left ≤ q.right ∧
  q.right - q.left = sumSize msgs ∧
  q.right ≤ q.left + q.size ∧
  laidOut q.size q.data q.left msgs

/-- The queue state after sending one empty message on a fresh
4096-byte queue, used as a concrete reachable state. -/
def exQ1 : Queue :=
  ⟨4096,
    writeBytes 4096 (writeBytes 4096 (fun _ => 0) 0 (List.replicate 8 0)) 0 (leBytes64 0),
    0, 8⟩

/-- Two naturals whose distance is strictly between 0 and `Q` are not
congruent mod `Q`. -/
theorem mod_ne_of_between (Q a b : Nat) (h1 : a < b) (h2 : b - a < Q) :
    a % Q ≠ b % Q := by
  intro h
  have hd : Q ∣ b - a := (Nat.modEq_iff_dvd' h1.le).mp h
  have := Nat.le_of_dvd (by omega) hd
  omega

/-- Reading depends only on the start offset mod `Q`. -/
theorem readBytes_congr (Q : Nat) (d : Nat → Nat) (u v n : Nat) (h : u % Q = v % Q) :
    readBytes Q d u n = readBytes Q d v n := by
  induction n generalizing u v with
  | zero => rfl
  | succ n ih =>
    simp only [readBytes, h]
    exact congrArg _ (ih (u + 1) (v + 1) (by rw [Nat.add_mod, h, ← Nat.add_mod]))

/-- A store leaves physical indices outside its window unchanged. -/
theorem writeBytes_apply_ne (Q : Nat) (l : List Nat) (d : Nat → Nat) (v j : Nat)
    (h : ∀ i, i < l.length → (v + i) % Q ≠ j) :
    writeBytes Q d v l j = d j := by
  induction l generalizing d v with
  | nil => rfl
  | cons b rest ih =>
    show writeBytes Q (writeByte Q d v b) (v + 1) rest j = d j
    rw [ih (writeByte Q d v b) (v + 1) ?_]
    · show (if j = v % Q then b else d j) = d j
      rw [if_neg]
      intro hj
      exact h 0 (by simp) (by simpa using hj.symm)
    · intro i hi
      have h' := h (i + 1) (by simp only [List.length_cons]; omega)
      rw [show v + 1 + i = v + (i + 1) from by omega]
      exact h'

/-- Reading back a window just written returns the written bytes,
provided the write does not wrap over itself. -/
theorem readBytes_writeBytes (Q : Nat) (l : List Nat) (d : Nat → Nat) (v : Nat)
    (hl : l.length ≤ Q) :
    readBytes Q (writeBytes Q d v l) v l.length = l := by
  induction l generalizing d v with
  | nil => rfl
  | cons b rest ih =>
    show readBytes Q (writeBytes Q (writeByte Q d v b) (v + 1) rest) v (rest.length + 1)
      = b :: rest
    rw [readBytes]
    have hhead : writeBytes Q (writeByte Q d v b) (v + 1) rest (v % Q) = b := by
      rw [writeBytes_apply_ne Q rest (writeByte Q d v b) (v + 1) (v % Q) ?_]
      · exact if_pos rfl
      · intro i hi
        refine (mod_ne_of_between Q v (v + 1 + i) (by omega) ?_).symm
        simp only [List.length_cons] at hl
        omega
    rw [hhead, ih (writeByte Q d v b) (v + 1) (by simp only [List.length_cons] at hl; omega)]

/-- A read of a window disjoint (mod `Q`) from a write is unaffected. -/
theorem readBytes_writeBytes_disjoint (Q : Nat) (l : List Nat) (d : Nat → Nat)
    (v u n : Nat)
    (h : ∀ i j, i < l.length → j < n → (v + i) % Q ≠ (u + j) % Q) :
    readBytes Q (writeBytes Q d v l) u n = readBytes Q d u n := by
  induction n generalizing u with
  | zero => rfl
  | succ n ih =>
    simp only [readBytes]
    refine congrArg₂ _ ?_ (ih (u + 1) fun i j hi hj => ?_)
    · refine writeBytes_apply_ne Q l d v (u % Q) fun i hi => ?_
      have h' := h i 0 hi (by omega)
      simpa using h'
    · have h' := h i (j + 1) hi (by omega)
      rw [show u + 1 + j = u + (j + 1) from by omega]
      exact h'

/-- The length field always encodes to 8 bytes. -/
theorem leBytes64_length (n : Nat) : (leBytes64 n).length = 8 := rfl

/-- Splitting a remainder by a composite modulus `256 * B` into the low
byte and the remainder of the quotient. -/
theorem mod_mul_256 (n B : Nat) (hB : 0 < B) :
    n % (256 * B) = n % 256 + 256 * (n / 256 % B) := by
  have h1 : n % 256 + 256 * (n / 256 % B) + (n / 256 / B) * (256 * B) = n := by
    calc n % 256 + 256 * (n / 256 % B) + (n / 256 / B) * (256 * B)
        = n % 256 + 256 * (n / 256 % B + B * (n / 256 / B)) := by ring
      _ = n % 256 + 256 * (n / 256) := by rw [Nat.mod_add_div]
      _ = n := Nat.mod_add_div n 256
  have h2 : n % 256 + 256 * (n / 256 % B) < 256 * B := by
    have hs : n / 256 % B < B := Nat.mod_lt _ hB
    have hr : n % 256 < 256 := Nat.mod_lt _ (by norm_num)
    have hmul : 256 * (n / 256 % B + 1) ≤ 256 * B := Nat.mul_le_mul_left 256 (by omega)
    omega
  conv_lhs => rw [← h1]
  rw [Nat.add_mul_mod_self_right, Nat.mod_eq_of_lt h2]

/-- Decoding the `k` little-endian bytes of `n` recovers `n` mod `256 ^ k`. -/
theorem leDecodeAux_leBytesAux (k n : Nat) :
    leDecodeAux (leBytesAux k n) = n % 256 ^ k := by
  induction k generalizing n with
  | zero => simp [leBytesAux, leDecodeAux, Nat.mod_one]
  | succ k ih =>
    show n % 256 + 256 * leDecodeAux (leBytesAux k (n / 256)) = n % 256 ^ (k + 1)
    rw [ih (n / 256),
      show (256 : Nat) ^ (k + 1) = 256 * 256 ^ k from by rw [Nat.pow_succ, Nat.mul_comm],
      mod_mul_256 n (256 ^ k) (Nat.pos_pow_of_pos k (by norm_num))]

/-- Round trip for the length field. -/
theorem leDecode_leBytes (n : Nat) (h : n < 2 ^ 64) : leDecode64 (leBytes64 n) = n := by
  have := leDecodeAux_leBytesAux 8 n
  have h8 : (256 : Nat) ^ 8 = 2 ^ 64 := by norm_num
  rw [leDecode64, leBytes64, this, h8, Nat.mod_eq_of_lt h]

theorem sumSize_nil : sumSize [] = 0 := rfl

theorem sumSize_cons (m : List Nat) (msgs : List (List Nat)) :
    sumSize (m :: msgs) = 8 + m.length + sumSize msgs := by
  simp [sumSize, Nat.add_assoc]

theorem sumSize_append_single (msgs : List (List Nat)) (p : List Nat) :
    sumSize (msgs ++ [p]) = sumSize msgs + (8 + p.length) := by
  simp [sumSize]

/-- Message layout depends only on the base offset mod `Q`. -/
theorem laidOut_congr (Q : Nat) (d : Nat → Nat) (msgs : List (List Nat)) (u v : Nat)
    (h : u % Q = v % Q) (hl : laidOut Q d u msgs) : laidOut Q d v msgs := by
  induction msgs generalizing u v with
  | nil => trivial
  | cons m rest ih =>
    obtain ⟨h1, h2, h3⟩ := hl
    have hc : ∀ c : Nat, (u + c) % Q = (v + c) % Q := fun c => by
      rw [Nat.add_mod, h, ← Nat.add_mod]
    exact ⟨(readBytes_congr Q d v u 8 (h.symm)).trans h1,
      (readBytes_congr Q d (v + 8) (u + 8) m.length (hc 8).symm).trans h2,
      ih (u + 8 + m.length) (v + 8 + m.length)
        (by rw [Nat.add_assoc, Nat.add_assoc]; exact hc (8 + m.length)) h3⟩

/-- A write disjoint (mod `Q`) from the whole message window preserves
the layout. -/
theorem laidOut_writeBytes (Q : Nat) (l : List Nat) (d : Nat → Nat) (v : Nat)
    (msgs : List (List Nat)) (u : Nat)
    (h : ∀ i j, i < l.length → j < sumSize msgs → (v + i) % Q ≠ (u + j) % Q)
    (hl : laidOut Q d u msgs) : laidOut Q (writeBytes Q d v l) u msgs := by
  induction msgs generalizing u with
  | nil => trivial
  | cons m rest ih =>
    obtain ⟨h1, h2, h3⟩ := hl
    have hsum : sumSize (m :: rest) = 8 + m.length + sumSize rest := sumSize_cons m rest
    refine ⟨?_, ?_, ?_⟩
    · rw [readBytes_writeBytes_disjoint Q l d v u 8 fun i j hi hj => h i j hi (by omega)]
      exact h1
    · rw [readBytes_writeBytes_disjoint Q l d v (u + 8) m.length fun i j hi hj => ?_]
      · exact h2
      · have h' := h i (8 + j) hi (by omega)
        rw [show u + 8 + j = u + (8 + j) from by omega]
        exact h'
    · refine ih (u + 8 + m.length) (fun i j hi hj => ?_) h3
      have h' := h i (8 + m.length + j) hi (by omega)
      rw [show u + 8 + m.length + j = u + (8 + m.length + j) from by omega]
      exact h'

/-- Appending a message laid out right behind the existing window. -/
theorem laidOut_append_single (Q : Nat) (d : Nat → Nat) (msgs : List (List Nat))
    (p : List Nat) (u : Nat)
    (h1 : laidOut Q d u msgs)
    (h2 : readBytes Q d (u + sumSize msgs) 8 = leBytes64 p.length)
    (h3 : readBytes Q d (u + sumSize msgs + 8) p.length = p) :
    laidOut Q d u (msgs ++ [p]) := by
  induction msgs generalizing u with
  | nil =>
    refine ⟨?_, ?_, trivial⟩
    · simpa [sumSize_nil] using h2
    · simpa [sumSize_nil] using h3
  | cons m rest ih =>
    obtain ⟨g1, g2, g3⟩ := h1
    refine ⟨g1, g2, ih (u + 8 + m.length) g3 ?_ ?_⟩
    · rw [show u + 8 + m.length + sumSize rest = u + sumSize (m :: rest) from by
        rw [sumSize_cons]; omega]
      exact h2
    · rw [show u + 8 + m.length + sumSize rest + 8 = u + sumSize (m :: rest) + 8 from by
        rw [sumSize_cons]; omega]
      exact h3

/-- When the framed request fits in the free window of an ordered,
not-over-full queue, `alloc_for_write` succeeds after at most one
rewind: both offsets are shifted down by an amount `a` (zero whenever
the loaded left offset did not exceed the capacity), shifting by `a`
preserves offsets mod `q.size`, the ring bytes are untouched, and the
returned pointer sits at the shifted right offset. -/
theorem allocForWrite_fits (q : Queue) (size : Nat)
    (hsz : 0 < q.size) (hlr : q.left ≤ q.right) (hcap : q.right ≤ q.left + q.size)
    (hfit : size + (q.right - q.left) ≤ q.size) :
    ∃ a, a ≤ q.left ∧ (q.left ≤ q.size → a = 0) ∧
      (∀ x, a ≤ x → (x - a) % q.size = x % q.size) ∧
      allocForWrite q size =
        some (⟨q.size, q.data, q.left - a, q.right - a⟩, q.right - a) := by
  by_cases h : q.size < q.left
  · refine ⟨q.size, h.le, fun hc => absurd hc (by omega), fun x hx => ?_, ?_⟩
    · conv_rhs => rw [show x = (x - q.size) + 1 * q.size from by omega]
      rw [Nat.add_mul_mod_self_right]
    · show allocLoop (q.left + 1) q size = _
      simp only [allocLoop]
      rw [if_pos h, if_pos (by omega)]
  · refine ⟨0, Nat.zero_le _, fun _ => rfl, fun x _ => by rw [Nat.sub_zero], ?_⟩
    simp only [Nat.sub_zero]
    show allocLoop (q.left + 1) q size = some (⟨q.size, q.data, q.left, q.right⟩, q.right)
    simp only [allocLoop]
    rw [if_neg h, if_pos (by omega)]

/-- Structure of any successful `alloc_for_write` run from an ordered
state: capacity and ring bytes are unchanged, the returned pointer is
the new right offset, order is preserved, and both offsets decreased by
the same multiple `k` of the capacity — with `k` positive exactly when
the loaded left offset exceeded the capacity (the rewind trigger
`left > self.size`). -/
theorem allocLoop_rewinds : ∀ (fuel : Nat) (q : Queue) (size : Nat) (q' : Queue) (pos : Nat),
    0 < q.size → q.left ≤ q.right →
    allocLoop fuel q size = some (q', pos) →
    q'.size = q.size ∧ q'.data = q.data ∧ pos = q'.right ∧ q'.left ≤ q'.right ∧
      ∃ k, q'.left + k * q.size = q.left ∧ q'.right + k * q.size = q.right ∧
        (0 < k ↔ q.size < q.left) := by
  intro fuel
  induction fuel with
  | zero => intro q size q' pos _ _ h; simp [allocLoop] at h
  | succ fuel ih =>
    intro q size q' pos hsz hlr h
    simp only [allocLoop] at h
    by_cases hr : q.size < q.left
    · rw [if_pos hr] at h
      by_cases hs : size ≤ q.left + q.size - (q.right - q.size)
      · rw [if_pos hs] at h
        simp only [Option.some.injEq, Prod.mk.injEq] at h
        obtain ⟨h1, h2⟩ := h
        subst h1
        refine ⟨rfl, rfl, h2.symm, by simp; omega, 1, ?_, ?_, by simp [hr]⟩
        · simp; omega
        · simp; omega
      · rw [if_neg hs] at h
        obtain ⟨g1, g2, g3, g4, k, gk1, gk2, _⟩ :=
          ih ⟨q.size, q.data, q.left - q.size, q.right - q.size⟩ size q' pos hsz
            (by simp; omega) h
        simp only at g1 g2 gk1 gk2
        refine ⟨g1, g2, g3, g4, k + 1, ?_, ?_, by simp [hr]⟩
        · have : (k + 1) * q.size = k * q.size + q.size := by ring
          rw [this]; omega
        · have : (k + 1) * q.size = k * q.size + q.size := by ring
          rw [this]; omega
    · rw [if_neg hr] at h
      by_cases hs : size ≤ q.left + q.size - q.right
      · rw [if_pos hs] at h
        simp only [Option.some.injEq, Prod.mk.injEq] at h
        obtain ⟨h1, h2⟩ := h
        subst h1
        exact ⟨rfl, rfl, h2.symm, hlr, 0, by simp, by simp, by simp; omega⟩
      · rw [if_neg hs] at h
        exact absurd h (by simp)

/-- When the loaded left offset is within the capacity and the check
`space_available >= size` passes, `alloc_for_write` returns at once
without touching anything. -/
theorem allocForWrite_noRewind (q : Queue) (size : Nat)
    (h1 : q.left ≤ q.size) (h2 : size ≤ q.left + q.size - q.right) :
    allocForWrite q size = some (q, q.right) := by
  show allocLoop (q.left + 1) q size = _
  simp only [allocLoop]
  rw [if_neg (by omega), if_pos h2]

/-- A writer `write` call whose request fits the free window: the
oversize check passes, allocation succeeds after at most one rewind,
and the buffer lands at the current write cursor. -/
theorem writerWrite_ok (q : Queue) (tw : Nat) (buf : List Nat)
    (hsz : 0 < q.size) (hlr : q.left ≤ q.right) (hcap : q.right ≤ q.left + q.size)
    (hfit : buf.length + (q.right - q.left) ≤ q.size) (hbuf : buf.length ≤ tw + q.size) :
    ∃ a, a ≤ q.left ∧ (q.left ≤ q.size → a = 0) ∧
      (∀ x, a ≤ x → (x - a) % q.size = x % q.size) ∧
      writerWrite q tw buf =
        some (⟨q.size, writeBytes q.size q.data (q.right - a + tw) buf,
          q.left - a, q.right - a⟩, tw + buf.length, true) := by
  obtain ⟨a, haL, haz, hamod, ha⟩ := allocForWrite_fits q buf.length hsz hlr hcap hfit
  refine ⟨a, haL, haz, hamod, ?_⟩
  rw [writerWrite, if_neg (by omega), ha]

/-- Full offset bookkeeping for a single-buffer `MemeQueue::write` that
starts with `left ≤ size` (so no rewind fires) and whose two
allocations both pass the source's space checks: the send completes,
propagates the callback result, and advances `right` by
`8 + payload length` while `left` is untouched. -/
theorem memeWrite_noRewind (q : Queue) (p : List Nat) (c : Bool)
    (hsz : 0 < q.size) (hlr : q.left ≤ q.right) (hcap : q.right ≤ q.left + q.size)
    (hleft : q.left ≤ q.size)
    (hfit8 : 8 + (q.right - q.left) ≤ q.size)
    (hfitp : p.length + (q.right - q.left) ≤ q.size) :
    ∃ d', memeWrite q [p] c =
      some (⟨q.size, d', q.left, q.right + (8 + p.length)⟩, c) := by
  have ha1 : allocForWrite q 8 = some (q, q.right) :=
    allocForWrite_noRewind q 8 hleft (by omega)
  obtain ⟨a2, ha2L, ha2z, _, hw⟩ :=
    writerWrite_ok ⟨q.size, writeBytes q.size q.data q.right (List.replicate 8 0),
        q.left, q.right⟩ 8 p hsz hlr hcap hfitp
      (show p.length ≤ 8 + q.size by omega)
  have ha2 : a2 = 0 := ha2z hleft
  subst ha2
  simp only [Nat.sub_zero] at hw
  refine ⟨writeBytes q.size
      (writeBytes q.size (writeBytes q.size q.data q.right (List.replicate 8 0))
        (q.right + 8) p)
      q.right (leBytes64 p.length), ?_⟩
  simp only [memeWrite, ha1, runCallback, hw, Bool.true_and, Nat.add_sub_cancel_left]

/-- A recv from a well-formed state with a pending message consumes
exactly that message: the decoded length field is the payload length,
the returned slice is the payload, and `left` advances by the framed
size, re-establishing well-formedness for the remaining messages. -/
theorem memeRead_ok (q : Queue) (m : List Nat) (msgs : List (List Nat))
    (hwf : WF q (m :: msgs)) :
    memeRead q = some (⟨q.size, q.data, q.left + 8 + m.length, q.right⟩, m) ∧
      WF ⟨q.size, q.data, q.left + 8 + m.length, q.right⟩ msgs := by
  obtain ⟨h8, h64, hlr, hsum, hcap, hlaid⟩ := hwf
  obtain ⟨hpre, hpay, hrest⟩ := hlaid
  rw [sumSize_cons] at hsum
  have hlen : m.length < 2 ^ 64 := by omega
  have hdec : leDecode64 (readBytes q.size q.data q.left 8) = m.length := by
    rw [hpre, leDecode_leBytes _ hlen]
  constructor
  · rw [memeRead, if_pos (by omega), hdec, hpay]
  · refine ⟨h8, h64, ?_, ?_, ?_, ?_⟩
    · show q.left + 8 + m.length ≤ q.right
      omega
    · show q.right - (q.left + 8 + m.length) = sumSize msgs
      omega
    · show q.right ≤ q.left + 8 + m.length + q.size
      omega
    · exact hrest

/-- A fitting single-buffer send from a well-formed state: it succeeds,
returns the callback's own result, appends the payload to the pending
messages, and shifts the offsets down only by the rewind amount `a`
(zero whenever the left offset was within the capacity) while `right`
advances by the framed size. -/
theorem memeWrite_ok (q : Queue) (msgs : List (List Nat)) (p : List Nat) (c : Bool)
    (hwf : WF q msgs)
    (hfit : 8 + p.length + (q.right - q.left) ≤ q.size) :
    ∃ q', memeWrite q [p] c = some (q', c) ∧ WF q' (msgs ++ [p]) ∧
      q'.size = q.size ∧
      ∃ a, a ≤ q.left ∧ (q.left ≤ q.size → a = 0) ∧
        q'.left = q.left - a ∧ q'.right = q.right + (8 + p.length) - a := by
  obtain ⟨h8, h64, hlr, hsum, hcap, hlaid⟩ := hwf
  obtain ⟨a1, ha1L, ha1z, ha1mod, ha1⟩ :=
    allocForWrite_fits q 8 (by omega) hlr hcap (by omega)
  obtain ⟨a2, ha2L, ha2z, ha2mod, hw⟩ :=
    writerWrite_ok ⟨q.size, writeBytes q.size q.data (q.right - a1) (List.replicate 8 0),
        q.left - a1, q.right - a1⟩ 8 p (show 0 < q.size by omega)
      (show q.left - a1 ≤ q.right - a1 by omega)
      (show q.right - a1 ≤ q.left - a1 + q.size by omega)
      (show p.length + (q.right - a1 - (q.left - a1)) ≤ q.size by
        rw [show q.right - a1 - (q.left - a1) = q.right - q.left from by omega]; omega)
      (show p.length ≤ 8 + q.size by omega)
  dsimp only at ha2L ha2z ha2mod hw
  refine ⟨⟨q.size,
      writeBytes q.size
        (writeBytes q.size
          (writeBytes q.size q.data (q.right - a1) (List.replicate 8 0))
          (q.right - a1 - a2 + 8) p)
        (q.right - a1) (leBytes64 p.length),
      q.left - a1 - a2, q.right - a1 - a2 + (8 + p.length)⟩, ?_, ?_, rfl,
    a1 + a2, by omega, ?_,
    show q.left - a1 - a2 = q.left - (a1 + a2) from by omega,
    show q.right - a1 - a2 + (8 + p.length) = q.right + (8 + p.length) - (a1 + a2)
      from by omega⟩
  · simp only [memeWrite, ha1, runCallback, hw, Bool.true_and, Nat.add_sub_cancel_left]
  · -- well-formedness of the new state
    have hmodA : ∀ x, a1 + a2 ≤ x → (x - a1 - a2) % q.size = x % q.size := fun x hx =>
      (ha2mod (x - a1) (by omega)).trans (ha1mod x (by omega))
    have hdisj : ∀ y j, y < 8 + p.length → j < sumSize msgs →
        (q.right + y) % q.size ≠ (q.left + j) % q.size := by
      intro y j hy hj
      refine (mod_ne_of_between q.size (q.left + j) (q.right + y) (by omega) (by omega)).symm
    refine ⟨h8, h64,
      show q.left - a1 - a2 ≤ q.right - a1 - a2 + (8 + p.length) from by omega, ?_,
      show q.right - a1 - a2 + (8 + p.length) ≤ q.left - a1 - a2 + q.size from by omega, ?_⟩
    · show q.right - a1 - a2 + (8 + p.length) - (q.left - a1 - a2) = sumSize (msgs ++ [p])
      rw [sumSize_append_single,
        show q.right - a1 - a2 + (8 + p.length) - (q.left - a1 - a2)
          = (q.right - q.left) + (8 + p.length) from by omega, hsum]
    · -- layout: old messages survive the three writes, the new message
      -- sits right behind them
      have hlaid2 : laidOut q.size
          (writeBytes q.size q.data (q.right - a1) (List.replicate 8 0)) q.left msgs := by
        refine laidOut_writeBytes _ _ _ _ _ _ (fun i j hi hj => ?_) hlaid
        simp only [List.length_replicate] at hi
        rw [show q.right - a1 + i = q.right + i - a1 from by omega, ha1mod _ (by omega)]
        exact hdisj i j (by omega) hj
      have hlaid3 : laidOut q.size
          (writeBytes q.size
            (writeBytes q.size q.data (q.right - a1) (List.replicate 8 0))
            (q.right - a1 - a2 + 8) p) q.left msgs := by
        refine laidOut_writeBytes _ _ _ _ _ _ (fun i j hi hj => ?_) hlaid2
        rw [show q.right - a1 - a2 + 8 + i = q.right + (8 + i) - a1 - a2 from by omega,
          hmodA _ (by omega)]
        exact hdisj (8 + i) j (by omega) hj
      have hlaid4 : laidOut q.size
          (writeBytes q.size
            (writeBytes q.size
              (writeBytes q.size q.data (q.right - a1) (List.replicate 8 0))
              (q.right - a1 - a2 + 8) p)
            (q.right - a1) (leBytes64 p.length)) q.left msgs := by
        refine laidOut_writeBytes _ _ _ _ _ _ (fun i j hi hj => ?_) hlaid3
        rw [leBytes64_length] at hi
        rw [show q.right - a1 + i = q.right + i - a1 from by omega, ha1mod _ (by omega)]
        exact hdisj i j (by omega) hj
      show laidOut q.size _ (q.left - a1 - a2) (msgs ++ [p])
      refine laidOut_append_single _ _ _ _ _
        (laidOut_congr _ _ _ q.left _ ((hmodA q.left (by omega)).symm) hlaid4) ?_ ?_
      · rw [readBytes_congr _ _ (q.left - a1 - a2 + sumSize msgs) (q.right - a1) 8 (by
          rw [show q.left - a1 - a2 + sumSize msgs = q.right - a1 - a2 from by omega]
          exact ha2mod (q.right - a1) (by omega))]
        rw [show (8 : Nat) = (leBytes64 p.length).length from (leBytes64_length _).symm]
        exact readBytes_writeBytes _ _ _ _ (by rw [leBytes64_length]; omega)
      · rw [readBytes_congr _ _ (q.left - a1 - a2 + sumSize msgs + 8)
            (q.right - a1 - a2 + 8) p.length (by
          rw [show q.left - a1 - a2 + sumSize msgs + 8 = q.right - a1 - a2 + 8 from by omega])]
        rw [readBytes_writeBytes_disjoint _ _ _ _ _ _ (fun i j hi hj => ?_)]
        · exact readBytes_writeBytes _ _ _ _ (by omega)
        · rw [leBytes64_length] at hi
          rw [show q.right - a1 + i = q.right + i - a1 from by omega, ha1mod _ (by omega),
            show q.right - a1 - a2 + 8 + j = q.right + (8 + j) - a1 - a2 from by omega,
            hmodA _ (by omega)]
          exact mod_ne_of_between q.size (q.right + i) (q.right + (8 + j)) (by omega)
            (by omega)
  · intro h
    have e1 := ha1z h
    have e2 := ha2z (by omega)
    omega

/-- Offsets across one producer callback: capacity fixed, order kept,
`total_written` never decreases, and both offsets move down by one
common multiple of the capacity (the rewinds inside the allocations). -/
theorem runCallback_offsets : ∀ (bufs : List (List Nat)) (q : Queue) (tw : Nat)
    (q' : Queue) (tw' : Nat) (ok : Bool),
    0 < q.size → q.left ≤ q.right →
    runCallback q tw bufs = some (q', tw', ok) →
    q'.size = q.size ∧ q'.left ≤ q'.right ∧ tw ≤ tw' ∧
      ∃ k, q'.left + k * q.size = q.left ∧ q'.right + k * q.size = q.right := by
  intro bufs
  induction bufs with
  | nil =>
    intro q tw q' tw' ok hsz hlr h
    simp only [runCallback, Option.some.injEq, Prod.mk.injEq] at h
    obtain ⟨h1, h2, h3⟩ := h
    subst h1; subst h2
    exact ⟨rfl, hlr, le_refl _, 0, by simp, by simp⟩
  | cons buf rest ih =>
    intro q tw q' tw' ok hsz hlr h
    rw [runCallback] at h
    by_cases herr : tw + q.size < buf.length
    · have hww : writerWrite q tw buf = some (q, tw, false) := by
        rw [writerWrite, if_pos herr]
      rw [hww] at h
      dsimp only at h
      simp only [Option.some.injEq, Prod.mk.injEq] at h
      obtain ⟨h1, h2, h3⟩ := h
      subst h1; subst h2
      exact ⟨rfl, hlr, le_refl _, 0, by simp, by simp⟩
    · cases ha : allocForWrite q buf.length with
      | none =>
        have hww : writerWrite q tw buf = none := by
          rw [writerWrite, if_neg herr, ha]
        rw [hww] at h
        exact absurd h (by simp)
      | some r1 =>
        obtain ⟨qA, pos⟩ := r1
        have hww : writerWrite q tw buf =
            some (⟨qA.size, writeBytes qA.size qA.data (pos + tw) buf, qA.left, qA.right⟩,
              tw + buf.length, true) := by
          rw [writerWrite, if_neg herr, ha]
        rw [hww] at h
        dsimp only at h
        obtain ⟨g1, g2, g3, g4, k1, gk1, gk2, _⟩ :=
          allocLoop_rewinds (q.left + 1) q buf.length qA pos hsz hlr ha
        obtain ⟨f1, f2, f3, k2, fk1, fk2⟩ :=
          ih ⟨qA.size, writeBytes qA.size qA.data (pos + tw) buf, qA.left, qA.right⟩
            (tw + buf.length) q' tw' ok (show 0 < qA.size from by omega)
            (show qA.left ≤ qA.right from g4) h
        dsimp only at f1 fk1 fk2
        rw [g1] at f1 fk1 fk2
        refine ⟨f1, f2, by omega, k1 + k2, ?_, ?_⟩
        · have e : (k1 + k2) * q.size = k1 * q.size + k2 * q.size := Nat.add_mul k1 k2 _
          omega
        · have e : (k1 + k2) * q.size = k1 * q.size + k2 * q.size := Nat.add_mul k1 k2 _
          omega

/-- Net effect of any completed send on the offsets: both may drop by a
common multiple of the capacity (the rewinds), and `right` additionally
advances by the final `total_written`, which is at least the 8 bytes of
the length field. -/
theorem memeWrite_offsets (q : Queue) (bufs : List (List Nat)) (c : Bool)
    (q' : Queue) (r : Bool)
    (hsz : 0 < q.size) (hlr : q.left ≤ q.right)
    (h : memeWrite q bufs c = some (q', r)) :
    ∃ k w, 8 ≤ w ∧ q'.left + k * q.size = q.left ∧
      q'.right + k * q.size = q.right + w := by
  rw [memeWrite] at h
  cases ha : allocForWrite q 8 with
  | none => rw [ha] at h; exact absurd h (by simp)
  | some r1 =>
    obtain ⟨q1, lenPtr⟩ := r1
    rw [ha] at h
    dsimp only at h
    obtain ⟨g1, g2, g3, g4, k1, gk1, gk2, _⟩ :=
      allocLoop_rewinds (q.left + 1) q 8 q1 lenPtr hsz hlr ha
    cases hrc : runCallback ⟨q1.size,
        writeBytes q1.size q1.data lenPtr (List.replicate 8 0), q1.left, q1.right⟩ 8 bufs with
    | none => rw [hrc] at h; exact absurd h (by simp)
    | some r2 =>
      obtain ⟨q3, tw, wOk⟩ := r2
      rw [hrc] at h
      dsimp only at h
      simp only [Option.some.injEq, Prod.mk.injEq] at h
      obtain ⟨h1, h2⟩ := h
      subst h1
      obtain ⟨f1, f2, f3, k2, fk1, fk2⟩ :=
        runCallback_offsets bufs ⟨q1.size,
            writeBytes q1.size q1.data lenPtr (List.replicate 8 0), q1.left, q1.right⟩
          8 q3 tw wOk (show 0 < q1.size from by omega)
          (show q1.left ≤ q1.right from g4) hrc
      dsimp only at f1 fk1 fk2
      rw [g1] at f1 fk1 fk2
      refine ⟨k1 + k2, tw, f3, ?_, ?_⟩
      · show q3.left + (k1 + k2) * q.size = q.left
        have e : (k1 + k2) * q.size = k1 * q.size + k2 * q.size := Nat.add_mul k1 k2 _
        omega
      · show q3.right + tw + (k1 + k2) * q.size = q.right + tw
        have e : (k1 + k2) * q.size = k1 * q.size + k2 * q.size := Nat.add_mul k1 k2 _
        omega

/-- A completed recv never decreases `left`, and touches neither
`right` nor the ring bytes nor the capacity. -/
theorem memeRead_state (q : Queue) (q' : Queue) (out : List Nat)
    (h : memeRead q = some (q', out)) :
    q.left ≤ q'.left ∧ q'.right = q.right ∧ q'.data = q.data ∧ q'.size = q.size := by
  rw [memeRead] at h
  by_cases hc : 0 < q.right - q.left
  · rw [if_pos hc] at h
    simp only [Option.some.injEq, Prod.mk.injEq] at h
    obtain ⟨h1, _⟩ := h
    subst h1
    exact ⟨show q.left ≤ q.left + 8 + leDecode64 (readBytes q.size q.data q.left 8)
      from by omega, rfl, rfl, rfl⟩
  · rw [if_neg hc] at h
    exact absurd h (by simp)

/-- Well-formedness is preserved along any run in which every send fits
the free window, as in the crate's proptest harness. -/
theorem runGuarded_WF : ∀ (ops : List Op) (q : Queue) (msgs : List (List Nat)) (q' : Queue),
    WF q msgs → runGuarded q ops = some q' →
    ∃ msgs', WF q' msgs' ∧ q'.size = q.size := by
  intro ops
  induction ops with
  | nil =>
    intro q msgs q' hwf h
    simp only [runGuarded, Option.some.injEq] at h
    subst h
    exact ⟨msgs, hwf, rfl⟩
  | cons op rest ih =>
    intro q msgs q' hwf h
    rw [runGuarded] at h
    cases op with
    | send p =>
      by_cases hg : 8 + p.length + (q.right - q.left) ≤ q.size
      · obtain ⟨q1, hq1, hwf1, hsz1, _⟩ := memeWrite_ok q msgs p true hwf hg
        have hstep : stepGuarded q (Op.send p) = some q1 := by
          rw [stepGuarded, if_pos hg, hq1]
          rfl
        rw [hstep] at h
        dsimp only at h
        obtain ⟨msgs', hwf', hsz'⟩ := ih q1 (msgs ++ [p]) q' hwf1 h
        exact ⟨msgs', hwf', hsz'.trans hsz1⟩
      · have hstep : stepGuarded q (Op.send p) = none := by
          rw [stepGuarded, if_neg hg]
        rw [hstep] at h
        exact absurd h (by simp)
    | recv =>
      cases msgs with
      | nil =>
        obtain ⟨_, _, _, hsum, _, _⟩ := hwf
        rw [sumSize_nil] at hsum
        have hread : memeRead q = none := by
          rw [memeRead, if_neg (by omega)]
        have hstep : stepGuarded q Op.recv = none := by
          rw [stepGuarded, hread]
          rfl
        rw [hstep] at h
        exact absurd h (by simp)
      | cons m rest' =>
        obtain ⟨hread, hwf1⟩ := memeRead_ok q m rest' hwf
        have hstep : stepGuarded q Op.recv =
            some ⟨q.size, q.data, q.left + 8 + m.length, q.right⟩ := by
          rw [stepGuarded, hread]
          rfl
        rw [hstep] at h
        dsimp only at h
        obtain ⟨msgs', hwf', hsz'⟩ := ih _ rest' q' hwf1 h
        exact ⟨msgs', hwf', hsz'⟩

/-- C1: starting from an empty queue, a send of any payload with
`|payload| ≤ Q - 8` (8 = size of the length field), the empty payload
included, followed by one recv yields exactly the original payload
bytes, and both offsets end at `8 + |payload|` — so for the empty
payload both offsets advance by exactly the size of the length field. -/
theorem c1_roundtrip (Q : Nat) (d0 : Nat → Nat) (p : List Nat)
    (hQ8 : 8 ≤ Q) (hQ64 : Q < 2 ^ 64) (hp : p.length ≤ Q - 8) :
    ∃ q1 q2, memeWrite (initQueue Q d0) [p] true = some (q1, true) ∧
      memeRead q1 = some (q2, p) ∧
      q1.left = 0 ∧ q1.right = 8 + p.length ∧
      q2.left = 8 + p.length ∧ q2.right = 8 + p.length := by
  have hwf0 : WF (initQueue Q d0) [] :=
    ⟨hQ8, hQ64, Nat.le_refl 0, rfl, Nat.zero_le _, trivial⟩
  obtain ⟨q1, hq1, hwf1, hsz1, a, haL, haz, hLe, hRe⟩ :=
    memeWrite_ok (initQueue Q d0) [] p true hwf0
      (show 8 + p.length + (0 - 0) ≤ Q from by omega)
  have ha0 : a = 0 := haz (Nat.zero_le Q)
  subst ha0
  have hL : q1.left = 0 := hLe.trans rfl
  have hR : q1.right = 8 + p.length := by
    rw [hRe]
    exact show 0 + (8 + p.length) - 0 = 8 + p.length from by omega
  rw [List.nil_append] at hwf1
  obtain ⟨hread, _⟩ := memeRead_ok q1 p [] hwf1
  refine ⟨q1, ⟨q1.size, q1.data, q1.left + 8 + p.length, q1.right⟩, hq1, hread,
    hL, hR, ?_, ?_⟩
  · show q1.left + 8 + p.length = 8 + p.length
    omega
  · show q1.right = 8 + p.length
    exact hR

/-- C1 witness: round trip of the two-byte payload `[5, 6]` on a
4096-byte queue. -/
theorem c1_roundtrip_witness :
    (8 ≤ 4096 ∧ 4096 < 2 ^ 64 ∧ ([5, 6] : List Nat).length ≤ 4096 - 8) ∧
    ∃ q1 q2, memeWrite (initQueue 4096 (fun _ => 0)) [[5, 6]] true = some (q1, true) ∧
      memeRead q1 = some (q2, [5, 6]) ∧
      q1.left = 0 ∧ q1.right = 8 + ([5, 6] : List Nat).length ∧
      q2.left = 8 + ([5, 6] : List Nat).length ∧
      q2.right = 8 + ([5, 6] : List Nat).length :=
  ⟨⟨by norm_num, by norm_num, by norm_num⟩,
    c1_roundtrip 4096 (fun _ => 0) [5, 6] (by norm_num) (by norm_num) (by norm_num)⟩

/-- C2, corrected: the callback's failure is propagated as the return
value, but `MemeQueue::write` commits regardless — the queue state
after a send whose callback failed is byte-for-byte the state after the
same send with a succeeding callback, so the message is visible to the
reader and `right` has advanced. -/
theorem c2_error_still_commits (q : Queue) (bufs : List (List Nat)) :
    memeWrite q bufs false = (memeWrite q bufs true).map fun x => (x.1, false) := by
  simp only [memeWrite]
  cases h1 : allocForWrite q 8 with
  | none => rfl
  | some r1 =>
    obtain ⟨q1, lenPtr⟩ := r1
    dsimp only
    cases h2 : runCallback ⟨q1.size,
        writeBytes q1.size q1.data lenPtr (List.replicate 8 0), q1.left, q1.right⟩ 8 bufs with
    | none => rfl
    | some r2 =>
      obtain ⟨q3, tw, wOk⟩ := r2
      simp [Bool.and_false, Bool.and_true]

/-- C2 counterexample: on a fresh 4096-byte queue, a send whose
callback writes `[7, 7, 7]` and then fails returns the failure, yet
`right` has advanced from 0 to 11 and a subsequent recv returns the
three bytes as a committed message. -/
theorem c2_counterexample :
    (memeWrite (initQueue 4096 (fun _ => 0)) [[7, 7, 7]] false).map
        (fun r => (r.1.right, r.2, (memeRead r.1).map fun s => (s.2, s.1.left))) =
      some (11, false, some ([7, 7, 7], 11)) := by decide

/-- C10: the `MemeState` returned by `export_state` has its
`right_pointer` loaded from the left offset (`lib.rs` line 217), so it
always equals the returned `left_pointer`, whatever the right offset
holds. -/
theorem c10_export_right_pointer (q : Queue) :
    (exportState q).right_pointer = q.left ∧
    (exportState q).right_pointer = (exportState q).left_pointer :=
  ⟨rfl, rfl⟩

/-- C8: the named-file and memfd handshake owners size the backing
object to `P + Q`, but `QueueMmaps::create_from_file` sets the file
length to `P + 2Q` (`mmap.rs` line 143) — at `P = Q = 4096` it installs
12288 bytes, not the `P + Q = 8192` required by the claim and by the
`HandshakeResult` safety contract. -/
theorem c8_owner_size :
    namedFileOwnerFileSize 4096 4096 = 4096 + 4096 ∧
    udsMemfdOwnerFileSize 4096 4096 = 4096 + 4096 ∧
    createFromFileFileSize 4096 4096 = 12288 ∧
    createFromFileFileSize 4096 4096 ≠ 4096 + 4096 := by decide

/-- C9: the peer-side recovery computes `Q = S - P` and hard-errors on
`S < P` or a non-multiple, but accepts a file of size exactly `P`
(yielding `Q = 0`) because `checked_sub` only rejects `S < P` — the
`expect` message says the size must be greater than the page size, yet
equality slips through. -/
theorem c9_peer_size :
    peerRecoverQueueSize 4096 8192 = some 4096 ∧
    peerRecoverQueueSize 4096 12288 = some 8192 ∧
    peerRecoverQueueSize 4096 4095 = none ∧
    peerRecoverQueueSize 4096 6144 = none ∧
    peerRecoverQueueSize 4096 4096 = some 0 := by decide

/-- C3 counterexample: with Q = 4096 both payload sizes 0 and 4088
satisfy the size constraint `|payload| ≤ Q - 8`, yet after
`send []; send (4088 bytes)` the offsets read left = 0, right = 4104,
violating `right - left ≤ Q`: the writer's space check ignores the 8
length-field bytes already reserved in `total_written`. -/
theorem c3_counterexample :
    ∃ q', run (initQueue 4096 (fun _ => 0))
        [Op.send [], Op.send (List.replicate 4088 3)] = some q' ∧
      q'.left = 0 ∧ q'.right = 4104 ∧ ¬(q'.right - q'.left ≤ 4096) := by
  obtain ⟨p, hp⟩ : ∃ p : List Nat, List.replicate 4088 3 = p := ⟨_, rfl⟩
  have hlen : p.length = 4088 := by rw [← hp, List.length_replicate]
  rw [hp]
  obtain ⟨d1, h1⟩ := memeWrite_noRewind (initQueue 4096 (fun _ => 0)) [] true
    (show (0 : Nat) < 4096 by norm_num) (Nat.le_refl 0)
    (show (0 : Nat) ≤ 0 + 4096 from Nat.zero_le _)
    (Nat.zero_le 4096)
    (show 8 + (0 - 0) ≤ 4096 by norm_num)
    (show (0 : Nat) + (0 - 0) ≤ 4096 by norm_num)
  have hs1 : step (initQueue 4096 (fun _ => 0)) (Op.send []) = some ⟨4096, d1, 0, 8⟩ := by
    show (memeWrite (initQueue 4096 (fun _ => 0)) [[]] true).map Prod.fst = _
    rw [h1]
    rfl
  obtain ⟨d2, h2⟩ := memeWrite_noRewind ⟨4096, d1, 0, 8⟩ p true
    (show (0 : Nat) < 4096 by norm_num)
    (show (0 : Nat) ≤ 8 by norm_num)
    (show (8 : Nat) ≤ 0 + 4096 by norm_num)
    (show (0 : Nat) ≤ 4096 by norm_num)
    (show 8 + (8 - 0) ≤ 4096 by norm_num)
    (show p.length + (8 - 0) ≤ 4096 from by rw [hlen])
  have hs2 : step (⟨4096, d1, 0, 8⟩ : Queue) (Op.send p) = some ⟨4096, d2, 0, 4104⟩ := by
    show (memeWrite ⟨4096, d1, 0, 8⟩ [p] true).map Prod.fst = _
    rw [h2, hlen]
    dsimp only
    norm_num
  refine ⟨⟨4096, d2, 0, 4104⟩, ?_, rfl, rfl,
    show ¬((4104 : Nat) - 0 ≤ 4096) by norm_num⟩
  show run (initQueue 4096 (fun _ => 0)) [Op.send [], Op.send p]
    = some ⟨4096, d2, 0, 4104⟩
  rw [run, hs1]
  dsimp only
  rw [run, hs2]
  dsimp only
  rw [run]

/-- C3, corrected: along every run in which each send, at the moment it
executes, fits in the free window (`8 + |payload| + (right - left) ≤ Q`,
the discipline of the crate's own property test), after every completed
operation the offsets satisfy `left ≤ right` and `right - left ≤ Q`. -/
theorem c3_invariant (Q : Nat) (d0 : Nat → Nat) (ops : List Op) (q' : Queue)
    (hQ8 : 8 ≤ Q) (hQ64 : Q < 2 ^ 64)
    (hrun : runGuarded (initQueue Q d0) ops = some q') :
    q'.left ≤ q'.right ∧ q'.right - q'.left ≤ Q := by
  have hwf0 : WF (initQueue Q d0) [] :=
    ⟨hQ8, hQ64, Nat.le_refl 0, rfl, Nat.zero_le _, trivial⟩
  obtain ⟨msgs, hwf, hsz⟩ := runGuarded_WF ops (initQueue Q d0) [] q' hwf0 hrun
  obtain ⟨_, _, hlr, _, hcap, _⟩ := hwf
  have hQ : q'.size = Q := hsz
  exact ⟨hlr, by omega⟩

/-- C3 witness: the guarded run sending one empty message on a fresh
4096-byte queue reaches the state `exQ1`, which satisfies both
inequalities. -/
theorem c3_invariant_witness :
    exQ1.left ≤ exQ1.right ∧ exQ1.right - exQ1.left ≤ 4096 :=
  c3_invariant 4096 (fun _ => 0) [Op.send []] exQ1 (by norm_num) (by norm_num) rfl

/-- C4, on the failing input: on a fresh 4096-byte queue a single
`write` of 4089 bytes with no payload bytes yet written should, per the
claim, fail with the no-space error since 4089 > min(u32::MAX, Q - 8) =
4088; the source instead compares `buf.len()` against
`total_written + size`, accepts the buffer, and commits right = 4097 —
beyond the capacity.  The source's own error fires only above
`total_written + Q` bytes, as the accepted/rejected pair 4089/4105
shows. -/
theorem c4_oversize_check :
    (∃ q', memeWrite (initQueue 4096 (fun _ => 0)) [List.replicate 4089 1] true
        = some (q', true) ∧ q'.left = 0 ∧ q'.right = 4097) ∧
    4089 + 0 > min (4294967295 : Nat) (4096 - 8) ∧
    writerWrite (initQueue 4096 (fun _ => 0)) 8 (List.replicate 4105 1) =
      some (initQueue 4096 (fun _ => 0), 8, false) := by
  refine ⟨?_, by norm_num, ?_⟩
  · obtain ⟨p, hp⟩ : ∃ p : List Nat, List.replicate 4089 1 = p := ⟨_, rfl⟩
    have hlen : p.length = 4089 := by rw [← hp, List.length_replicate]
    rw [hp]
    obtain ⟨d', h⟩ := memeWrite_noRewind (initQueue 4096 (fun _ => 0)) p true
      (show (0 : Nat) < 4096 by norm_num) (Nat.le_refl 0)
      (show (0 : Nat) ≤ 0 + 4096 from Nat.zero_le _) (Nat.zero_le 4096)
      (show 8 + (0 - 0) ≤ 4096 by norm_num)
      (show p.length + (0 - 0) ≤ 4096 from by rw [hlen]; norm_num)
    refine ⟨⟨4096, d', 0, 4097⟩, ?_, rfl, rfl⟩
    rw [h, hlen]
    simp only [initQueue]
  · obtain ⟨p, hp⟩ : ∃ p : List Nat, List.replicate 4105 1 = p := ⟨_, rfl⟩
    have hlen : p.length = 4105 := by rw [← hp, List.length_replicate]
    rw [hp, writerWrite, if_pos (show 8 + (initQueue 4096 (fun _ => 0)).size
        < p.length from by
      rw [hlen]
      exact (show 8 + (4096 : Nat) < 4105 by norm_num))]

/-- C5, corrected: in the reservation loop the rewind fires exactly
when the loaded left offset strictly exceeds the capacity
(`left > self.size`, not `left ≥ Q`); every successful allocation
shifts both offsets down by the same multiple of the capacity — a
positive one exactly when the trigger held — and leaves the ring bytes
untouched; a recv never decreases an offset, and a send only decreases
offsets by such common multiples while advancing `right` by the bytes
written. -/
theorem c5_rewind (q : Queue) (size : Nat) (bufs : List (List Nat)) (c : Bool)
    (hsz : 0 < q.size) (hlr : q.left ≤ q.right) :
    (∀ q' pos, allocForWrite q size = some (q', pos) →
      q'.data = q.data ∧
      ∃ k, q'.left + k * q.size = q.left ∧ q'.right + k * q.size = q.right ∧
        (0 < k ↔ q.size < q.left)) ∧
    (∀ q' out, memeRead q = some (q', out) →
      q.left ≤ q'.left ∧ q'.right = q.right ∧ q'.data = q.data) ∧
    (∀ q' r, memeWrite q bufs c = some (q', r) →
      ∃ k w, 8 ≤ w ∧ q'.left + k * q.size = q.left ∧
        q'.right + k * q.size = q.right + w) := by
  refine ⟨?_, ?_, ?_⟩
  · intro q' pos h
    obtain ⟨g1, g2, g3, g4, k, gk1, gk2, gkiff⟩ :=
      allocLoop_rewinds (q.left + 1) q size q' pos hsz hlr h
    exact ⟨g2, k, gk1, gk2, gkiff⟩
  · intro q' out h
    obtain ⟨m1, m2, m3, _⟩ := memeRead_state q q' out h
    exact ⟨m1, m2, m3⟩
  · intro q' r h
    exact memeWrite_offsets q bufs c q' r hsz hlr h

/-- C5 witness: from the state (left, right) = (8200, 8300) an
allocation of 8 bytes rewinds once, landing on (4104, 4204) with the
ring bytes unchanged. -/
theorem c5_rewind_witness :
    (fun _ : Nat => (0 : Nat)) = (fun _ : Nat => (0 : Nat)) ∧
    ∃ k, 4104 + k * 4096 = 8200 ∧ 4204 + k * 4096 = 8300 ∧ (0 < k ↔ 4096 < 8200) :=
  (c5_rewind ⟨4096, fun _ => 0, 8200, 8300⟩ 8 [] true
      (show (0 : Nat) < 4096 by norm_num) (show (8200 : Nat) ≤ 8300 by norm_num)).1
    ⟨4096, fun _ => 0, 4104, 4204⟩ 4204 rfl

/-- C5 counterexample: a reservation that observes left offset exactly
equal to the capacity (so ≥ Q, as the claim requires) does not rewind —
the offsets come back unchanged — and the state left = right = 4096 is
reached by a real run, whose following send commits at 4096..4104
without any rewind. -/
theorem c5_counterexample :
    ((allocForWrite ⟨4096, fun _ => 0, 4096, 4096⟩ 8).map fun x => (x.1.left, x.1.right, x.2))
        = some (4096, 4096, 4096) ∧
    ∃ q', run (initQueue 4096 (fun _ => 0))
        [Op.send (List.replicate 4088 2), Op.recv, Op.send []] = some q' ∧
      q'.left = 4096 ∧ q'.right = 4104 := by
  refine ⟨by decide, ?_⟩
  obtain ⟨p, hp⟩ : ∃ p : List Nat, List.replicate 4088 2 = p := ⟨_, rfl⟩
  have hlen : p.length = 4088 := by rw [← hp, List.length_replicate]
  rw [hp]
  have hwf0 : WF (initQueue 4096 (fun _ => 0)) [] :=
    ⟨show (8 : Nat) ≤ 4096 by norm_num, show (4096 : Nat) < 2 ^ 64 by norm_num,
      Nat.le_refl 0, rfl, Nat.zero_le _, trivial⟩
  obtain ⟨q1, hq1, hwf1, hsz1, a, haL, haz, hLe, hRe⟩ :=
    memeWrite_ok (initQueue 4096 (fun _ => 0)) [] p true hwf0
      (show 8 + p.length + (0 - 0) ≤ 4096 from by rw [hlen])
  have ha0 : a = 0 := haz (Nat.zero_le _)
  subst ha0
  have hL1 : q1.left = 0 := hLe.trans rfl
  have hR1 : q1.right = 4096 := by
    rw [hRe, hlen]
    exact (show (0 : Nat) + (8 + 4088) - 0 = 4096 by norm_num)
  have hQ1 : q1.size = 4096 := hsz1.trans rfl
  rw [List.nil_append] at hwf1
  obtain ⟨hread, _⟩ := memeRead_ok q1 p [] hwf1
  have hs1 : step (initQueue 4096 (fun _ => 0)) (Op.send p) = some q1 := by
    show (memeWrite (initQueue 4096 (fun _ => 0)) [p] true).map Prod.fst = _
    rw [hq1]
    rfl
  have hs2 : step q1 Op.recv = some ⟨q1.size, q1.data, q1.left + 8 + p.length, q1.right⟩ := by
    show (memeRead q1).map Prod.fst = _
    rw [hread]
    rfl
  obtain ⟨d3, h3⟩ := memeWrite_noRewind
    ⟨q1.size, q1.data, q1.left + 8 + p.length, q1.right⟩ [] true
    (show 0 < q1.size from by omega)
    (show q1.left + 8 + p.length ≤ q1.right from by omega)
    (show q1.right ≤ q1.left + 8 + p.length + q1.size from by omega)
    (show q1.left + 8 + p.length ≤ q1.size from by omega)
    (show 8 + (q1.right - (q1.left + 8 + p.length)) ≤ q1.size from by omega)
    (show (0 : Nat) + (q1.right - (q1.left + 8 + p.length)) ≤ q1.size from by omega)
  have hs3 : step (⟨q1.size, q1.data, q1.left + 8 + p.length, q1.right⟩ : Queue)
      (Op.send []) = some ⟨4096, d3, 4096, 4104⟩ := by
    show (memeWrite ⟨q1.size, q1.data, q1.left + 8 + p.length, q1.right⟩ [[]] true).map
      Prod.fst = _
    rw [h3]
    dsimp only
    rw [hQ1, hL1, hR1, hlen]
    norm_num
  refine ⟨⟨4096, d3, 4096, 4104⟩, ?_, rfl, rfl⟩
  show run (initQueue 4096 (fun _ => 0)) [Op.send p, Op.recv, Op.send []]
    = some ⟨4096, d3, 4096, 4104⟩
  rw [run, hs1]
  dsimp only
  rw [run, hs2]
  dsimp only
  rw [run, hs3]
  dsimp only
  rw [run]

/-- C6, corrected: along every run whose sends fit the free window at
the moment they execute, whenever recv observes `right > left` the
difference is at least 8 = sizeof the length field — matching the
source's `debug_assert!(right - left >= 8)`; equality is reached by
committed zero-length messages, so the claim's strict bound does not
hold. -/
theorem c6_min_gap (Q : Nat) (d0 : Nat → Nat) (ops : List Op) (q' : Queue)
    (hQ8 : 8 ≤ Q) (hQ64 : Q < 2 ^ 64)
    (hrun : runGuarded (initQueue Q d0) ops = some q')
    (hobs : 0 < q'.right - q'.left) :
    8 ≤ q'.right - q'.left := by
  have hwf0 : WF (initQueue Q d0) [] :=
    ⟨hQ8, hQ64, Nat.le_refl 0, rfl, Nat.zero_le _, trivial⟩
  obtain ⟨msgs, hwf, _⟩ := runGuarded_WF ops (initQueue Q d0) [] q' hwf0 hrun
  obtain ⟨_, _, _, hsum, _, _⟩ := hwf
  cases msgs with
  | nil => rw [sumSize_nil] at hsum; omega
  | cons m rest =>
    rw [sumSize_cons] at hsum
    omega

/-- C6 witness: the state after one guarded empty send has a gap of
exactly 8, observed as nonempty by recv. -/
theorem c6_min_gap_witness :
    (0 : Nat) < exQ1.right - exQ1.left ∧ 8 ≤ exQ1.right - exQ1.left :=
  ⟨by decide, c6_min_gap 4096 (fun _ => 0) [Op.send []] exQ1 (by norm_num) (by norm_num)
    rfl (by decide)⟩

/-- C6 counterexample: after `send(empty)` on a fresh 4096-byte queue,
recv observes right − left = 8 and proceeds (it returns and advances
left to 8), yet 8 is not strictly greater than the 8-byte length-field
size, refuting the claim's strict inequality. -/
theorem c6_counterexample :
    (run (initQueue 4096 (fun _ => 0)) [Op.send []]).map
        (fun q => (q.right - q.left, (memeRead q).map fun r => r.1.left)) =
      some (8, some 8) ∧
    ¬((8 : Nat) > 8) :=
  ⟨by decide, by norm_num⟩

/-- C7: whenever a committed message of size `s` is at the head
(`right > left` and the length field at `left` decodes to `s`), recv
advances `left` by exactly `8 + s` and merely passes the consumer
callback's result through — a failing callback consumes the message
exactly as a succeeding one does. -/
theorem c7_recv_consumes_on_failure {E A : Type} (q : Queue) (s : Nat)
    (f : List Nat → Except E A) (e : E)
    (hne : 0 < q.right - q.left)
    (hs : leDecode64 (readBytes q.size q.data q.left 8) = s)
    (hf : f (readBytes q.size q.data (q.left + 8) s) = Except.error e) :
    memeReadWith q f =
      some (⟨q.size, q.data, q.left + 8 + s, q.right⟩, Except.error e) := by
  show (memeRead q).map (fun r => (r.1, f r.2)) = _
  rw [memeRead, if_pos hne]
  simp only [Option.map_some']
  rw [hs, hf]

/-- C7 witness: reading the zero-length message at the head of a queue
whose ring holds zeroes, with a callback that always fails, advances
left from 0 to 8 and propagates the error. -/
theorem c7_witness :
    (0 : Nat) < 8 - 0 ∧
    memeReadWith (⟨4096, fun _ => 0, 0, 8⟩ : Queue)
        (fun _ => (Except.error 0 : Except Nat Nat)) =
      some (⟨4096, fun _ => 0, 8, 8⟩, Except.error 0) :=
  ⟨by norm_num,
    c7_recv_consumes_on_failure ⟨4096, fun _ => 0, 0, 8⟩ 0
      (fun _ => (Except.error 0 : Except Nat Nat)) 0 (by decide) (by decide) rfl⟩

end Memequeue
